import Mathlib

/-!
Shallow embedding of the core data structures of the repository
(source file: src/input/1_Programming_Languages/Rust/data_structures.rs):

- FastVec (the GrowableBuffer of the spec): an owning growable array.
  The raw memory block is modelled by the list of its occupied slots
  (indices 0 .. len-1) together with the capacity counter; slots at or
  beyond len are never readable through the API (get is bounds-checked),
  so the list of occupied slots is a faithful state abstraction.
- LockFreeQueue (the ConcurrentQueue of the spec): the Michael-Scott
  queue, modelled under single-caller sequential use: every
  compare-exchange whose expected value matches succeeds, so the chain
  of nodes from the head (the head node playing the sentinel role, its
  payload already taken) evolves deterministically.
- BST (the BalancedSearchTree of the spec): the AVL tree with cached
  heights.  Option of Box of BSTNode is modelled by an inductive tree
  with a nil constructor; each mutating Rust function that takes a
  mutable reference becomes a function returning the new tree.
-/

set_option autoImplicit false

universe u

namespace DataStructures

/-! ## FastVec (GrowableBuffer) -/

/-- State of FastVec: the occupied slots (in index order) and the
capacity of the allocated block.  The invariant of the source,
len ≤ capacity, is proved, not assumed. -/
structure FastVec (α : Type u) where
  data : List α
  capacity : Nat
  deriving DecidableEq, Repr

namespace FastVec

variable {α : Type u}

/-- FastVec::new: no allocation, len = 0, capacity = 0. -/
def new : FastVec α := ⟨[], 0⟩

/-- FastVec::with_capacity: capacity 0 falls back to new, otherwise a
single allocation of n slots, len = 0. -/
def with_capacity (n : Nat) : FastVec α :=
  if n = 0 then new else ⟨[], n⟩

/-- FastVec::len. -/
def len (v : FastVec α) : Nat := v.data.length

/-- FastVec::grow: new capacity is 4 when the capacity was 0, else
double; the occupied slots are copied over unchanged. -/
def grow (v : FastVec α) : FastVec α :=
  { v with capacity := if v.capacity = 0 then 4 else v.capacity * 2 }

/-- FastVec::push: grow when len = capacity, then write at index len
and increment len. -/
def push (v : FastVec α) (value : α) : FastVec α :=
  let v := if v.len = v.capacity then v.grow else v
  { v with data := v.data ++ [value] }

/-- FastVec::pop: on empty return none and leave the state unchanged,
else decrement len and hand out the element at the old last index. -/
def pop (v : FastVec α) : FastVec α × Option α :=
  if v.len = 0 then (v, none)
  else ({ v with data := v.data.dropLast }, v.data.getLast?)

/-- FastVec::get: bounds-checked read, none when index ≥ len.  The
source takes a shared reference, so no state is returned: the operation
cannot mutate by construction. -/
def get (v : FastVec α) (index : Nat) : Option α :=
  if index < v.len then v.data.get? index else none

/-- FastVec::is_empty. -/
def is_empty (v : FastVec α) : Bool := v.len = 0

/-- Push a whole list, first element first. -/
def pushAll (v : FastVec α) : List α → FastVec α
  | [] => v
  | x :: xs => (v.push x).pushAll xs

/-- Pop n times, collecting the successfully returned values in pop
order. -/
def popN (v : FastVec α) : Nat → FastVec α × List α
  | 0 => (v, [])
  | n + 1 =>
    let p := v.pop
    let q := p.1.popN n
    (q.1, p.2.toList ++ q.2)

end FastVec

/-! ## LockFreeQueue (ConcurrentQueue), sequential single-caller model -/

/-- State of LockFreeQueue under sequential use: headData is the
payload slot of the node head points to (the sentinel role: its payload
has always already been taken), rest holds the payload slots of the
nodes after it in chain order, the last of them being the node tail
points to.  head = tail exactly when rest is empty.  size is the
approximate counter. -/
structure LockFreeQueue (α : Type u) where
  headData : Option α
  rest : List (Option α)
  size : Nat
  deriving DecidableEq, Repr

namespace LockFreeQueue

variable {α : Type u}

/-- LockFreeQueue::new: a single sentinel node with empty payload,
head = tail = sentinel. -/
def new : LockFreeQueue α := ⟨none, [], 0⟩

/-- LockFreeQueue::enqueue run sequentially: the loop finds tail with a
null next on its first iteration, the link compare-exchange succeeds,
the trailing tail-advance compare-exchange succeeds, and the size
counter is incremented. -/
def enqueue (q : LockFreeQueue α) (data : α) : LockFreeQueue α :=
  { q with rest := q.rest ++ [some data], size := q.size + 1 }

/-- LockFreeQueue::dequeue run sequentially: when head = tail the next
link is null and none is returned with the queue untouched; otherwise
the payload of the successor of head is taken out of its node, the head
compare-exchange succeeds making that successor the new head (its
payload now empty), the old head node is freed and the size counter is
decremented. -/
def dequeue (q : LockFreeQueue α) : LockFreeQueue α × Option α :=
  match q.rest with
  | [] => (q, none)
  | x :: rest => (⟨none, rest, q.size - 1⟩, x)

/-- Operations of the queue API used by a single caller. -/
inductive QOp (α : Type u) where
  | enq (x : α)
  | deq
  deriving DecidableEq, Repr

/-- Run a sequence of operations, collecting the values returned by
successful dequeues in order. -/
def runQ (q : LockFreeQueue α) : List (QOp α) → LockFreeQueue α × List α
  | [] => (q, [])
  | .enq x :: ops => runQ (q.enqueue x) ops
  | .deq :: ops =>
    let p := q.dequeue
    let r := runQ p.1 ops
    (r.1, p.2.toList ++ r.2)

/-- The values enqueued by a sequence of operations, in order. -/
def enqueuedOf : List (QOp α) → List α
  | [] => []
  | .enq x :: ops => x :: enqueuedOf ops
  | .deq :: ops => enqueuedOf ops

end LockFreeQueue

/-! ## BST (BalancedSearchTree) -/

/-- Option of Box of BSTNode: nil models None, node models a BSTNode
with its value, owned left and right subtrees, and cached height. -/
inductive Tree (α : Type u) where
  | nil
  | node (value : α) (left right : Tree α) (height : Nat)
  deriving DecidableEq, Repr

namespace Tree

variable {α : Type u}

/-- BST::get_height: 0 for an absent child, else the cached height. -/
def get_height : Tree α → Nat
  | .nil => 0
  | .node _ _ _ h => h

/-- BST::get_balance: cached height of the left subtree minus cached
height of the right subtree, as a signed integer. -/
def get_balance : Tree α → Int
  | .nil => 0
  | .node _ l r _ => (get_height l : Int) - (get_height r : Int)

/-- Number of nodes of a tree; used as recursion fuel for remove. -/
def size : Tree α → Nat
  | .nil => 0
  | .node _ l r _ => 1 + size l + size r

/-- BST::rotate_right.  The source takes the node out of its slot and
only puts a tree back when the left child exists, so a rotation at a
node without a left child leaves the slot empty; it never happens on
the balancing paths, where the left height is at least 2. -/
def rotate_right : Tree α → Tree α
  | .nil => .nil
  | .node v l r _ =>
    match l with
    | .nil => .nil
    | .node lv ll lr _ =>
      let n := Tree.node v lr r (1 + max (get_height lr) (get_height r))
      Tree.node lv ll n (1 + max (get_height ll) (get_height n))

/-- BST::rotate_left, the mirror image of rotate_right. -/
def rotate_left : Tree α → Tree α
  | .nil => .nil
  | .node v l r _ =>
    match r with
    | .nil => .nil
    | .node rv rl rr _ =>
      let n := Tree.node v l rl (1 + max (get_height l) (get_height rl))
      Tree.node rv n rr (1 + max (get_height n) (get_height rr))

/-- BST::balance_node: the four AVL rebalancing cases driven by the
cached balance factors. -/
def balance_node : Tree α → Tree α
  | .nil => .nil
  | .node v l r h =>
    let balance := get_balance (.node v l r h)
    if balance > 1 then
      let l2 := if get_balance l < 0 then rotate_left l else l
      rotate_right (.node v l2 r h)
    else if balance < -1 then
      let r2 := if get_balance r > 0 then rotate_right r else r
      rotate_left (.node v l r2 h)
    else .node v l r h

/-- BST::insert_node: recursive descent by comparison, equal values
rejected; on an actual insertion the height is recomputed and the node
rebalanced on the way back up. -/
def insert_node [LinearOrder α] : Tree α → α → Tree α × Bool
  | .nil, value => (.node value .nil .nil 1, true)
  | .node v l r h, value =>
    if value < v then
      let p := insert_node l value
      if p.2 then
        (balance_node (.node v p.1 r (1 + max (get_height p.1) (get_height r))), true)
      else (.node v p.1 r h, false)
    else if v < value then
      let p := insert_node r value
      if p.2 then
        (balance_node (.node v l p.1 (1 + max (get_height l) (get_height p.1))), true)
      else (.node v l p.1 h, false)
    else (.node v l r h, false)

/-- BST::search_node: pure recursive descent by comparison. -/
def search_node [LinearOrder α] : Tree α → α → Bool
  | .nil, _ => false
  | .node v l r _, value =>
    if value < v then search_node l value
    else if v < value then search_node r value
    else true

/-- Walk to the leftmost node of the tree, as the while loop of the
two-children case of BST::remove_node does, and perform the
mem::replace of the source: the leftmost value is returned and the
given value is written into the leftmost node.  On nil (never reached
from remove) the given value is returned unchanged. -/
def swapMin (newVal : α) : Tree α → α × Tree α
  | .nil => (newVal, .nil)
  | .node v l r h =>
    match l with
    | .nil => (v, .node newVal .nil r h)
    | .node lv ll lr lh =>
      let p := swapMin newVal (.node lv ll lr lh)
      (p.1, .node v p.2 r h)

/-- BST::remove_node, with an explicit fuel argument making the
recursion structural: the recursive call of the two-children case runs
on the swapMin image of the right subtree, which is not a subterm but
has the same size, so remove_node below passes the node count as fuel
and the out-of-fuel branch is never reached (removeF_fuel_irrelevant).
The two-children case follows the source exactly: the value to delete
is swapped into the leftmost node of the right subtree, the in-order
successor value takes its place at the current node, the recursive
removal of the successor value is run on the modified right subtree
with its success flag discarded, and the cached height of the current
node is left untouched. -/
def removeF [LinearOrder α] : Nat → Tree α → α → Tree α × Bool
  | _, .nil, _ => (.nil, false)
  | 0, .node v l r h, _ => (.node v l r h, false)
  | fuel + 1, .node v l r h, value =>
    if value < v then
      let p := removeF fuel l value
      if p.2 then
        (balance_node (.node v p.1 r (1 + max (get_height p.1) (get_height r))), true)
      else (.node v p.1 r h, false)
    else if v < value then
      let p := removeF fuel r value
      if p.2 then
        (balance_node (.node v l p.1 (1 + max (get_height l) (get_height p.1))), true)
      else (.node v l p.1 h, false)
    else
      match l, r with
      | .nil, .nil => (.nil, true)
      | .nil, .node rv rl rr rh => (.node rv rl rr rh, true)
      | .node lv ll lr lh, .nil => (.node lv ll lr lh, true)
      | .node lv ll lr lh, .node rv rl rr rh =>
        let sm := swapMin v (.node rv rl rr rh)
        let p := removeF fuel sm.2 sm.1
        (.node sm.1 (.node lv ll lr lh) p.1 h, true)

/-- BST::remove_node at adequate fuel. -/
def remove_node [LinearOrder α] (t : Tree α) (value : α) : Tree α × Bool :=
  removeF t.size t value

/-- BST::inorder_recursive flattened into a list. -/
def inorder : Tree α → List α
  | .nil => []
  | .node v l r _ => inorder l ++ v :: inorder r

end Tree

/-- BST: an optional root and a size counter. -/
structure BST (α : Type u) where
  root : Tree α
  size : Nat
  deriving DecidableEq, Repr

namespace BST

variable {α : Type u}

/-- BST::new. -/
def new : BST α := ⟨.nil, 0⟩

/-- BST::insert: the counter is incremented only when insert_node
reports an actual insertion. -/
def insert [LinearOrder α] (t : BST α) (value : α) : BST α :=
  let p := Tree.insert_node t.root value
  { root := p.1, size := if p.2 then t.size + 1 else t.size }

/-- BST::contains. -/
def contains [LinearOrder α] (t : BST α) (value : α) : Bool :=
  Tree.search_node t.root value

/-- BST::remove: the counter is decremented only when remove_node
reports a removal, and the flag is returned. -/
def remove [LinearOrder α] (t : BST α) (value : α) : BST α × Bool :=
  let p := Tree.remove_node t.root value
  ({ root := p.1, size := if p.2 then t.size - 1 else t.size }, p.2)

/-- BST::is_empty. -/
def is_empty (t : BST α) : Bool := t.size = 0

/-- BST::inorder_traversal. -/
def inorder_traversal (t : BST α) : List α := t.root.inorder

end BST

/-! ## Concrete scenarios from the demo and the spec -/

/-- Demo tree of run_data_structures_demo: values 50, 30, 70, 20, 40,
60, 80 inserted in order. -/
def bstDemo : BST Int :=
  ((((((BST.new.insert 50).insert 30).insert 70).insert 20).insert
      40).insert 60).insert 80

/-- Demo tree after remove(30). -/
def bstDemoAfterRemove : BST Int := (bstDemo.remove 30).1

/-- Minimal removal scenario: insert 2, 1, 3, then remove 2, which
exercises the two-children case of remove_node. -/
def bstSmall : BST Int := ((((BST.new.insert 2).insert 1).insert 3).remove 2).1

/-! ## Supporting lemmas -/

namespace FastVec

variable {α : Type u}

theorem push_data (v : FastVec α) (x : α) : (v.push x).data = v.data ++ [x] := by
  unfold push grow
  dsimp only
  split <;> rfl

theorem push_capacity (v : FastVec α) (x : α) :
    (v.push x).capacity =
      if v.len = v.capacity then (if v.capacity = 0 then 4 else v.capacity * 2)
      else v.capacity := by
  unfold push grow
  dsimp only
  split <;> rfl

theorem pushAll_data (v : FastVec α) (xs : List α) :
    (v.pushAll xs).data = v.data ++ xs := by
  induction xs generalizing v with
  | nil => simp [pushAll]
  | cons x xs ih => simp [pushAll, ih, push_data]

theorem popN_concat (xs : List α) :
    ∀ (d : List α) (c : Nat), popN ⟨d ++ xs, c⟩ xs.length = (⟨d, c⟩, xs.reverse) := by
  induction xs using List.reverseRecOn with
  | nil => intro d c; simp [popN]
  | append_singleton ys y ih =>
    intro d c
    have hlen : (d ++ (ys ++ [y])).length = (d.length + ys.length) + 1 := by
      simp [List.length_append]
      omega
    have hne : ¬ (⟨d ++ (ys ++ [y]), c⟩ : FastVec α).len = 0 := by
      simp [len, hlen]
    have hpop : (⟨d ++ (ys ++ [y]), c⟩ : FastVec α).pop
        = (⟨d ++ ys, c⟩, some y) := by
      unfold pop
      rw [if_neg hne]
      rw [show d ++ (ys ++ [y]) = (d ++ ys) ++ [y] by simp]
      simp [List.dropLast_concat, List.getLast?_concat]
    rw [show (ys ++ [y]).length = ys.length + 1 by simp]
    unfold popN
    dsimp only
    rw [hpop]
    dsimp only
    rw [ih d c]
    simp

end FastVec

namespace LockFreeQueue

variable {α : Type u}

/-- Invariant run of the sequential queue: starting from a chain whose
nodes after the head carry exactly the payloads of vs, the run ends in
a chain of the same shape and the collected dequeue results followed by
the leftover payloads are the initial payloads followed by the
enqueued values. -/
theorem runQ_spec (ops : List (QOp α)) :
    ∀ (d : Option α) (vs : List α) (n : Nat),
      ∃ (d2 : Option α) (vs2 : List α) (m : Nat) (outs : List α),
        runQ ⟨d, vs.map some, n⟩ ops = (⟨d2, vs2.map some, m⟩, outs) ∧
        outs ++ vs2 = vs ++ enqueuedOf ops := by
  induction ops with
  | nil =>
    intro d vs n
    exact ⟨d, vs, n, [], rfl, by simp [enqueuedOf]⟩
  | cons op ops ih =>
    intro d vs n
    match op with
    | .enq x =>
      have hq : runQ (⟨d, vs.map some, n⟩ : LockFreeQueue α) (.enq x :: ops)
          = runQ ⟨d, (vs ++ [x]).map some, n + 1⟩ ops := by
        simp [runQ, enqueue]
      obtain ⟨d2, vs2, m, outs, h1, h2⟩ := ih d (vs ++ [x]) (n + 1)
      refine ⟨d2, vs2, m, outs, by rw [hq, h1], ?_⟩
      rw [h2]
      simp [enqueuedOf]
    | .deq =>
      match vs with
      | [] =>
        have hq : runQ (⟨d, List.map some [], n⟩ : LockFreeQueue α) (.deq :: ops)
            = runQ ⟨d, List.map some [], n⟩ ops := by
          simp [runQ, dequeue]
        obtain ⟨d2, vs2, m, outs, h1, h2⟩ := ih d [] n
        exact ⟨d2, vs2, m, outs, by rw [hq, h1], by simpa [enqueuedOf] using h2⟩
      | v :: vs1 =>
        obtain ⟨d2, vs2, m, outs, h1, h2⟩ := ih none vs1 (n - 1)
        refine ⟨d2, vs2, m, v :: outs, ?_, ?_⟩
        · simp only [runQ, dequeue, List.map]
          rw [h1]
          simp [Option.toList]
        · simp only [List.cons_append, h2, enqueuedOf]
end LockFreeQueue

namespace Tree

variable {α : Type u}

/-- Inserting a value the descent already finds leaves the tree as it
is and reports false. -/
theorem insert_node_of_found [LinearOrder α] (t : Tree α) (value : α)
    (h : search_node t value = true) : insert_node t value = (t, false) := by
  induction t with
  | nil => simp [search_node] at h
  | node v l r hh ihl ihr =>
    unfold search_node at h
    unfold insert_node
    by_cases h1 : value < v
    · rw [if_pos h1] at h ⊢
      simp [ihl h]
    · rw [if_neg h1] at h ⊢
      by_cases h2 : v < value
      · rw [if_pos h2] at h ⊢
        simp [ihr h]
      · rw [if_neg h2]

/-- Removing a value the descent does not find leaves the tree as it
is and reports false, at every fuel. -/
theorem removeF_of_not_found [LinearOrder α] (t : Tree α) (value : α) :
    ∀ fuel, search_node t value = false → removeF fuel t value = (t, false) := by
  induction t with
  | nil => intro fuel _; cases fuel <;> rfl
  | node v l r hh ihl ihr =>
    intro fuel h
    unfold search_node at h
    cases fuel with
    | zero => rfl
    | succ fuel =>
      unfold removeF
      by_cases h1 : value < v
      · rw [if_pos h1] at h ⊢
        simp [ihl fuel h]
      · rw [if_neg h1] at h ⊢
        by_cases h2 : v < value
        · rw [if_pos h2] at h ⊢
          simp [ihr fuel h]
        · rw [if_neg h2] at h
          simp at h

end Tree

namespace FastVec

variable {α : Type u}

theorem push_len (v : FastVec α) (x : α) : (v.push x).len = v.len + 1 := by
  show (v.push x).data.length = v.data.length + 1
  rw [push_data]
  simp

theorem pop_capacity (v : FastVec α) : v.pop.1.capacity = v.capacity := by
  unfold pop
  split <;> rfl

end FastVec

/-! ## Claims -/

/-- Claim C1: the claim that after every finite sequence of insert and
remove operations the inorder traversal is strictly ascending and the
AVL invariants hold fails on the code: inserting 2, 1, 3 and removing
2 leaves the inorder traversal [1, 3, 2], which is not strictly
ascending.  The two-children case of remove_node swaps the deleted
value into the leftmost node of the right subtree before recursively
removing the successor value, so the recursive removal descends right
at that node and never finds its target: the deleted value stays in
the tree at a position violating the search order. -/
theorem bst_remove_breaks_strict_ascent :
    bstSmall.inorder_traversal = [1, 3, 2] ∧
    ¬ List.Chain' (fun a b : Int => a < b) bstSmall.inorder_traversal := by
  refine ⟨rfl, ?_⟩
  show ¬ List.Chain' (fun a b : Int => a < b) [1, 3, 2]
  simp [List.chain'_cons]

/-- Claim C2: on the demo scenario, insert 50, 30, 70, 20, 40, 60, 80
then remove(30), the claim expects the inorder traversal
[20, 40, 50, 60, 70, 80]; the code instead produces
[20, 40, 30, 50, 60, 70, 80], the value 30 surviving inside the tree
(see bst_remove_breaks_strict_ascent).  The contains parts of the
claim do hold: contains(40) is true and contains(90) is false. -/
theorem bst_demo_scenario_diverges :
    bstDemoAfterRemove.inorder_traversal = [20, 40, 30, 50, 60, 70, 80] ∧
    bstDemoAfterRemove.inorder_traversal ≠ [20, 40, 50, 60, 70, 80] ∧
    bstDemoAfterRemove.contains 40 = true ∧
    bstDemoAfterRemove.contains 90 = false := by
  refine ⟨rfl, by decide, rfl, rfl⟩

/-- Claim C3: the claim that size() always equals the number of
distinct values present fails on the code: after inserting 2, 1, 3 and
removing 2, the size counter reads 2 while the tree still holds the
three distinct values 1, 3, 2 (the removal reported success but left
the value in the tree, see bst_remove_breaks_strict_ascent). -/
theorem bst_size_diverges_from_content :
    bstSmall.size = 2 ∧ bstSmall.inorder_traversal.dedup.length = 3 := by
  decide

/-- Claim C4, counterexample: a buffer created with capacity 1 and
pushed once has length = capacity = 1; pushing again grows the
capacity to 1 * 2 = 2, not to max(4, 1 * 2) = 4 as the claim states.
The growth rule of the code is: capacity 0 grows to 4, any other
capacity doubles. -/
theorem fastvec_push_grow_counterexample :
    ((FastVec.with_capacity 1 : FastVec Int).push 0).len
      = ((FastVec.with_capacity 1 : FastVec Int).push 0).capacity ∧
    (((FastVec.with_capacity 1 : FastVec Int).push 0).push 0).capacity = 2 ∧
    (2 : Nat) ≠ max 4 (1 * 2) := by
  decide

/-- Claim C4, amended: for every buffer with length = capacity, push
grows the capacity to 4 when it was 0 and to double otherwise, then
writes the value at index length and increments length; a buffer
created empty has capacity 16 after 10 pushes, the capacity passing
through 0, 4, 8, 16. -/
theorem fastvec_push_grow_doubling {α : Type u} (v : FastVec α) (x : α)
    (hfull : v.len = v.capacity) :
    ((v.push x).capacity = if v.capacity = 0 then 4 else v.capacity * 2) ∧
    (v.push x).data.get? v.len = some x ∧
    (v.push x).len = v.len + 1 ∧
    (FastVec.new : FastVec Nat).capacity = 0 ∧
    ((FastVec.new : FastVec Nat).pushAll (List.range 1)).capacity = 4 ∧
    ((FastVec.new : FastVec Nat).pushAll (List.range 5)).capacity = 8 ∧
    ((FastVec.new : FastVec Nat).pushAll (List.range 9)).capacity = 16 ∧
    ((FastVec.new : FastVec Nat).pushAll (List.range 10)).capacity = 16 := by
  refine ⟨?_, ?_, FastVec.push_len v x, rfl, by decide, by decide, by decide, by decide⟩
  · rw [FastVec.push_capacity, if_pos hfull]
  · rw [FastVec.push_data]
    exact List.get?_concat_length v.data x

/-- Witness for fastvec_push_grow_doubling at the empty buffer. -/
theorem fastvec_push_grow_doubling_witness :
    ((FastVec.new : FastVec Int).push 0).capacity
      = if (FastVec.new : FastVec Int).capacity = 0 then 4
        else (FastVec.new : FastVec Int).capacity * 2 :=
  (fastvec_push_grow_doubling (FastVec.new : FastVec Int) 0 rfl).1

/-- Claim C5: under sequential single-caller use, the values returned
by successful dequeues of the lock-free queue are an initial segment
of the enqueued values in enqueue order, and dequeue on a logically
empty queue (head = tail, next link null, that is an empty rest chain)
returns none and leaves the state untouched. -/
theorem lockfree_queue_sequential_fifo {α : Type u} (ops : List (LockFreeQueue.QOp α)) :
    (∃ rest, (LockFreeQueue.runQ LockFreeQueue.new ops).2 ++ rest
        = LockFreeQueue.enqueuedOf ops) ∧
    ∀ (d : Option α) (n : Nat),
      LockFreeQueue.dequeue ⟨d, [], n⟩ = (⟨d, [], n⟩, none) := by
  constructor
  · obtain ⟨d2, vs2, m, outs, h1, h2⟩ := LockFreeQueue.runQ_spec ops none [] 0
    have hnew : (LockFreeQueue.new : LockFreeQueue α) = ⟨none, List.map some [], 0⟩ := rfl
    rw [hnew, h1]
    exact ⟨vs2, by simpa [LockFreeQueue.enqueuedOf] using h2⟩
  · intro d n
    rfl

/-- Claim C6: pushing a sequence and popping as many times returns the
values in strict reverse push order; pop on an empty buffer returns
none with the state unchanged; pop on a non-empty buffer returns the
element at the old last index, decrements the length and keeps the
capacity. -/
theorem fastvec_lifo {α : Type u} (v : FastVec α) (xs : List α) :
    ((v.pushAll xs).popN xs.length).2 = xs.reverse ∧
    (v.len = 0 → v.pop = (v, none)) ∧
    (v.len ≠ 0 →
      v.pop.2 = v.data.get? (v.len - 1) ∧
      v.pop.1.len = v.len - 1 ∧ v.pop.1.capacity = v.capacity) := by
  refine ⟨?_, ?_, ?_⟩
  · have h : v.pushAll xs = (⟨v.data ++ xs, (v.pushAll xs).capacity⟩ : FastVec α) := by
      conv_lhs => rw [show v.pushAll xs
        = (⟨(v.pushAll xs).data, (v.pushAll xs).capacity⟩ : FastVec α) from rfl]
      rw [FastVec.pushAll_data]
    rw [h, FastVec.popN_concat]
  · intro h
    unfold FastVec.pop
    rw [if_pos h]
  · intro h
    unfold FastVec.pop
    rw [if_neg h]
    refine ⟨?_, ?_, rfl⟩
    · show v.data.getLast? = v.data.get? (v.len - 1)
      exact List.getLast?_eq_get? v.data
    · show v.data.dropLast.length = v.data.length - 1
      simp

/-- Witness for fastvec_lifo on concrete buffers. -/
theorem fastvec_lifo_witness :
    ((FastVec.new.pushAll ([1, 2, 3] : List Int)).popN 3).2 = [3, 2, 1] ∧
    (FastVec.new : FastVec Int).pop = (FastVec.new, none) ∧
    ((⟨[7, 9], 2⟩ : FastVec Int).pop.2 = ([7, 9] : List Int).get? 1 ∧
      (⟨[7, 9], 2⟩ : FastVec Int).pop.1.len = 1 ∧
      (⟨[7, 9], 2⟩ : FastVec Int).pop.1.capacity = 2) :=
  ⟨(fastvec_lifo FastVec.new [1, 2, 3]).1,
   (fastvec_lifo (FastVec.new : FastVec Int) []).2.1 rfl,
   (fastvec_lifo (⟨[7, 9], 2⟩ : FastVec Int) []).2.2 (by decide)⟩

/-- Claim C7: 0 ≤ length holds by the type, length ≤ capacity holds
for the two constructors and is preserved by push and pop, and no
operation decreases the capacity: push can only enlarge it and pop
keeps it; get, len, capacity and is_empty take the state without
returning one, so they cannot change it. -/
theorem fastvec_length_le_capacity {α : Type u} (v : FastVec α) (x : α) (n : Nat) :
    (FastVec.new : FastVec α).len ≤ (FastVec.new : FastVec α).capacity ∧
    (FastVec.with_capacity n : FastVec α).len
      ≤ (FastVec.with_capacity n : FastVec α).capacity ∧
    (v.len ≤ v.capacity →
      (v.push x).len ≤ (v.push x).capacity ∧
      v.pop.1.len ≤ v.pop.1.capacity) ∧
    v.capacity ≤ (v.push x).capacity ∧
    v.pop.1.capacity = v.capacity := by
  refine ⟨Nat.le_refl 0, ?_, ?_, ?_, FastVec.pop_capacity v⟩
  · unfold FastVec.with_capacity
    split
    · exact Nat.le_refl 0
    · exact Nat.zero_le n
  · intro hinv
    have hlen : v.len = v.data.length := rfl
    constructor
    · rw [FastVec.push_len, FastVec.push_capacity]
      split
      · split <;> omega
      · omega
    · unfold FastVec.pop
      split
      · exact hinv
      · show v.data.dropLast.length ≤ v.capacity
        have : v.data.dropLast.length = v.data.length - 1 := by simp
        omega
  · rw [FastVec.push_capacity]
    split
    · split <;> omega
    · exact Nat.le_refl _

/-- Witness for fastvec_length_le_capacity on a concrete buffer. -/
theorem fastvec_length_le_capacity_witness :
    ((⟨[5], 2⟩ : FastVec Int).push 9).len ≤ ((⟨[5], 2⟩ : FastVec Int).push 9).capacity :=
  ((fastvec_length_le_capacity (⟨[5], 2⟩ : FastVec Int) 9 3).2.2.1 (by decide)).1

/-- Claim C8: get returns none exactly when the index is at least the
length, and otherwise the element stored at the index; in the source
it takes a shared reference and allocates nothing, which the embedding
reflects by get being a pure function of the state that returns no new
state. -/
theorem fastvec_get_bounds {α : Type u} (v : FastVec α) (index : Nat) :
    (v.get index = none ↔ v.len ≤ index) ∧
    ∀ h : index < v.len, v.get index = some (v.data.get ⟨index, h⟩) := by
  constructor
  · unfold FastVec.get
    by_cases h : index < v.len
    · rw [if_pos h, List.get?_eq_get h]
      simp only [reduceCtorEq, false_iff]
      omega
    · rw [if_neg h]
      simp only [true_iff]
      omega
  · intro h
    unfold FastVec.get
    rw [if_pos h, List.get?_eq_get h]

/-- Witness for fastvec_get_bounds on a concrete buffer and index. -/
theorem fastvec_get_bounds_witness :
    (⟨[4, 8], 5⟩ : FastVec Int).get 1 = some (([4, 8] : List Int).get ⟨1, by decide⟩) :=
  (fastvec_get_bounds (⟨[4, 8], 5⟩ : FastVec Int) 1).2 (by decide)

/-- Claim C9: inserting a value the tree already contains is rejected
as a plain false outcome: insert_node reports false and the whole
state, tree structure and size counter included, is exactly as
before. -/
theorem bst_duplicate_insert_unchanged {α : Type u} [LinearOrder α] (t : BST α) (value : α)
    (h : t.contains value = true) :
    t.insert value = t ∧ (Tree.insert_node t.root value).2 = false := by
  have hins := Tree.insert_node_of_found t.root value h
  constructor
  · simp only [BST.insert, hins]
    rfl
  · rw [hins]

/-- Witness for bst_duplicate_insert_unchanged on a one-node tree. -/
theorem bst_duplicate_insert_unchanged_witness :
    (BST.new.insert (5 : Int)).insert 5 = BST.new.insert 5 ∧
    (Tree.insert_node (BST.new.insert (5 : Int)).root 5).2 = false :=
  bst_duplicate_insert_unchanged (BST.new.insert 5) 5 (by decide)

/-- Claim C10: removing a value the descent from the root does not
reach returns false and leaves the whole state, and with it the size
counter, the inorder traversal and every cached height, exactly as
before. -/
theorem bst_remove_absent_unchanged {α : Type u} [LinearOrder α] (t : BST α) (value : α)
    (h : t.contains value = false) :
    t.remove value = (t, false) := by
  have hrem := Tree.removeF_of_not_found t.root value t.root.size h
  simp only [BST.remove, Tree.remove_node, hrem]
  rfl

/-- Witness for bst_remove_absent_unchanged on the demo tree. -/
theorem bst_remove_absent_unchanged_witness :
    bstDemo.remove 35 = (bstDemo, false) :=
  bst_remove_absent_unchanged bstDemo 35 (by decide)

end DataStructures
